import Mathlib

/-!
Verification of the Gleason dataset-preparation pipeline
(`prepare_tfrecords.py`, `tfrecord.py`).

Python strings are modelled as `List Char`, Python ints as `Int` / `Nat`,
and Python floats (all values produced here are exact decimal or integer
quotients) as `Rat`.  Fallible Python code (raised exceptions) is modelled
with `Option` / `Except PyError`.
-/

namespace Gleason

/-- Exception kinds.  `ZeroDivisionError` and `IndexError` model the Python
exceptions actually raised by the code; `ConfigurationError` is modelled from
the spec (section 7), which postulates such an error kind for a zero-count
class during weight computation — no code in the repository raises it. -/
inductive PyError
  | ZeroDivisionError
  | IndexError
  | ConfigurationError
deriving DecidableEq, Repr

/-- Embeds Python's `str.split(sep)` for a one-character separator, on the
character list of the string (CPython: `''.split(c) = ['']`,
`'a_b_'.split('_') = ['a','b','']`). -/
def splitOnChar (sep : Char) : List Char → List (List Char)
  | [] => [[]]
  | c :: cs =>
    match splitOnChar sep cs with
    | [] => [[]]
    | t :: ts => if c = sep then [] :: t :: ts else (c :: t) :: ts

/-- Embeds `img.split('/')[-1]` (`split` always returns a non-empty list, so
`[-1]` is its last element). -/
def basename (p : List Char) : List Char :=
  (splitOnChar '/' p).getLastD []

/-- Embeds the label table of `prepare_tfrecords.build_tfrecords`
(lines 89–96) and, identically, `calculate_class_ratios` (lines 58–65):
`"gleason_5" -> 3`, `"gleason_4" -> 2`, `"gleason_3" -> 1`, else `0`. -/
def labelTable (key : List Char) : Nat :=
  if key = "gleason_5".toList then 3
  else if key = "gleason_4".toList then 2
  else if key = "gleason_3".toList then 1
  else 0

/-- Embeds `file_name[0].lower() + '_' + file_name[1]` (only the first token
is lower-cased by the code). -/
def class_name (t0 t1 : List Char) : List Char :=
  (t0.map Char.toLower) ++ '_' :: t1

/-- The label resolver of `build_tfrecords` (lines 84–96):
`file_name = img.split('/')[-1].split('_')`, then the class key is
`file_name[0].lower() + '_' + file_name[1]` and the label comes from the
fixed table.  When the basename has fewer than two underscore-delimited
tokens, `file_name[1]` raises `IndexError`; that is modelled as `none`. -/
def label_of (img : List Char) : Option Nat :=
  match splitOnChar '_' (basename img) with
  | t0 :: t1 :: _ => some (labelTable (class_name t0 t1))
  | _ => none

/-- The class key as the spec's words describe it (section 4.1): "extract the
two leading underscore-delimited tokens, lower-case them, and join with an
underscore" — i.e. both tokens lower-cased. -/
def class_name_spec (t0 t1 : List Char) : List Char :=
  (t0.map Char.toLower) ++ '_' :: (t1.map Char.toLower)

/-- The label resolver as the spec's words describe it, for comparison with
`label_of` (same token extraction, key with both tokens lower-cased, same
fixed table). -/
def label_resolver_spec (img : List Char) : Option Nat :=
  match splitOnChar '_' (basename img) with
  | t0 :: t1 :: _ => some (labelTable (class_name_spec t0 t1))
  | _ => none

instance {ε α : Type} [DecidableEq ε] [DecidableEq α] : DecidableEq (Except ε α)
  | .ok a, .ok b => decidable_of_iff (a = b) (by simp)
  | .ok _, .error _ => isFalse (by simp)
  | .error _, .ok _ => isFalse (by simp)
  | .error e, .error f => decidable_of_iff (e = f) (by simp)

/-- Left-to-right `Option`-valued map: `some` of the mapped list when every
element succeeds, `none` at the first failure (models a Python loop that can
raise). -/
def mapOption (f : α → Option β) : List α → Option (List β)
  | [] => some []
  | a :: as =>
    match f a, mapOption f as with
    | some b, some bs => some (b :: bs)
    | _, _ => none

/-- Embeds the counting loop of `calculate_class_ratios` (lines 51–65): each
file's label via the same key logic as `build_tfrecords`, tallied into the
dict `{0:_, 1:_, 2:_, 3:_}`.  A file whose basename has fewer than two
tokens raises `IndexError` (`none`). -/
def countLabels (files : List (List Char)) : Option (List Nat) :=
  (mapOption label_of files).map
    (fun ls => [ls.count 0, ls.count 1, ls.count 2, ls.count 3])

/-- Embeds `f_i = [sum(values)/v for v in values]` (line 68, Python 3-style
true division via `from __future__ import division`): raises
`ZeroDivisionError` at the first zero divisor. -/
def mapDivNat (total : Rat) : List Nat → Except PyError (List Rat)
  | [] => .ok []
  | v :: vs =>
    if v = 0 then .error .ZeroDivisionError
    else
      match mapDivNat total vs with
      | .ok rest => .ok ((total / (v : Rat)) :: rest)
      | .error e => .error e

/-- Embeds `class_weights = [f/sum(f_i) for f in f_i]` (line 69): the divisor
is evaluated per element, so a zero sum raises at the first element of a
non-empty list. -/
def mapDivRat (s : Rat) : List Rat → Except PyError (List Rat)
  | [] => .ok []
  | f :: fs =>
    if s = 0 then .error .ZeroDivisionError
    else
      match mapDivRat s fs with
      | .ok rest => .ok ((f / s) :: rest)
      | .error e => .error e

/-- Embeds lines 67–69 of `calculate_class_ratios`: from the four per-class
counts, inverse-frequency terms `sum(values)/v` and then normalization by
their sum. -/
def calculate_class_ratios_core (values : List Nat) : Except PyError (List Rat) :=
  match mapDivNat ((values.sum : Nat) : Rat) values with
  | .error e => .error e
  | .ok f_i => mapDivRat f_i.sum f_i

/-- Embeds `calculate_class_ratios` (lines 47–72) from the file list to the
class-weight vector (the trailing `np.save` is outside the computation). -/
def calculate_class_ratios (files : List (List Char)) : Except PyError (List Rat) :=
  match countLabels files with
  | none => .error .IndexError
  | some values => calculate_class_ratios_core values

/-- A pixel raster as loaded by `np.array(Image.open(path))` for an 8-bit
image: a list of pixels (row-major), each pixel a list of per-channel byte
values. -/
abbrev GImage := List (List Nat)

/-- One serialized record: the three named features written by `encode`
(`image_raw` bytes, `file_path` bytes, `target_label` int64). -/
structure TFExample where
  image_raw : List Nat
  file_path : List Char
  target_label : Int
deriving DecidableEq, Repr

def INT64_MIN : Int := -(2 ^ 63)
def INT64_MAX : Int := 2 ^ 63 - 1

/-- Embeds `encode` (`tfrecord.py` lines 75–94): truncate to the first 3
channels (`img[:,:,:3]`), store the pixel buffer as raw `uint8` bytes
(`astype(np.float32)` then `astype(np.uint8)` is the identity on `0..255`
and reduction mod 256 on larger ints), keep the path, and store the label in
an `Int64List` feature (which rejects values outside the int64 range). -/
def encode (img : GImage) (path : List Char) (label : Int) : Option TFExample :=
  if INT64_MIN ≤ label ∧ label ≤ INT64_MAX then
    some ⟨((img.map (fun p => p.take 3)).flatten).map (· % 256), path, label⟩
  else none

/-- Two's-complement truncation of an int64 value to int32, the effect of
`tf.cast(features['target_label'], tf.int32)` (line 234). -/
def toInt32 (n : Int) : Int := (n + 2 ^ 31) % 2 ^ 32 - 2 ^ 31

/-- The decoded form of one record inside `read_and_decode`. -/
structure DecodedEx where
  pixels : List Nat
  label : Int
  path : List Char
deriving DecidableEq, Repr

/-- Embeds the per-record decode steps of `read_and_decode` (lines 223–238):
parse the three features, `tf.decode_raw` the image bytes as `uint8`,
`tf.reshape` to `img_dims = [ih, iw, 3]` (which fails unless the byte count
equals `ih*iw*3`; the pixel buffer is kept flat here, reshape being a
relabelling of the same bytes), and cast the label to int32.  The path
passes through unchanged. -/
def decodeExample (rec : TFExample) (ih iw : Nat) : Option DecodedEx :=
  if rec.image_raw.length = ih * iw * 3 then
    some ⟨rec.image_raw, toInt32 rec.target_label, rec.file_path⟩
  else none

/-- Index of the last occurrence of `c` in `l`, or `none` (Python `rfind`
returns `-1`; the `Option` plays that role). -/
def lastIdxOf (c : Char) (l : List Char) : Option Nat :=
  match (l.reverse).indexOf? c with
  | some i => some (l.length - 1 - i)
  | none => none

/-- Embeds `os.path.splitext` (CPython `posixpath`): split at the last `'.'`
provided it comes after the last `'/'` and at least one non-dot character of
the basename precedes it (so `".bashrc"` has no extension). -/
def splitext (p : List Char) : List Char × List Char :=
  let sepIndex : Int := match lastIdxOf '/' p with | some i => (i : Int) | none => -1
  let dotIndex : Int := match lastIdxOf '.' p with | some i => (i : Int) | none => -1
  if sepIndex < dotIndex ∧
      ((p.drop (sepIndex + 1).toNat).take (dotIndex - sepIndex - 1).toNat).any (· ≠ '.') then
    (p.take dotIndex.toNat, p.drop dotIndex.toNat)
  else (p, [])

/-- Embeds `tfrecord2metafilename` (`tfrecord.py` lines 46–53):
`base, ext = os.path.splitext(f)`, result `base + '_meta.npz'`. -/
def tfrecord2metafilename (tfrecords_filename : List Char) : List Char :=
  (splitext tfrecords_filename).1 ++ "_meta.npz".toList

/-- The pair of an image-file path and its target label, one input item of
the bulk encoder. -/
abbrev EncodeInput := List Char × Int

/-- Encoding of one submitted item inside `create_tf_record`: the worker runs
`encode(f, t_l)`.  The image loader stands for `Image.open`/`np.array`;
`none` is a raised exception (unreadable file, or a label outside int64),
surfaced later by `futures[i].result()`. -/
def encodeItem (loader : List Char → Option GImage) (inp : EncodeInput) : Option TFExample :=
  match loader inp.1 with
  | none => none
  | some img => encode img inp.1 inp.2

/-- Embeds the writing loop of `create_tf_record` (lines 188–193): iterate
the futures in submission order; `try: writer.write(...)` appends the
example, `except` skips it. -/
def writeExamples (f : EncodeInput → Option TFExample) : List EncodeInput → List TFExample
  | [] => []
  | x :: xs =>
    match f x with
    | some e => e :: writeExamples f xs
    | none => writeExamples f xs

/-- The contents of the sidecar archive written by
`np.savez(meta, file_pointers=..., labels=..., output_pointer=...)`
(line 196). -/
structure SidecarMeta where
  file_pointers : List (List Char)
  labels : List Int
  output_pointer : List Char
deriving DecidableEq, Repr

/-- One observable write performed by `create_tf_record`: a record appended
to the container, or the sidecar archive saved at a path. -/
inductive Event
  | recordWrite (e : TFExample)
  | metaWrite (path : List Char) (m : SidecarMeta)
deriving DecidableEq, Repr

/-- Embeds `create_tf_record` (`tfrecord.py` lines 162–200) as its sequence
of writes: every successfully encoded example in submission order, then the
single `np.savez` of the sidecar (original, unfiltered path and label lists
plus the container's own path) at `tfrecord2metafilename(tfrecords_filename)`. -/
def create_tf_record (loader : List Char → Option GImage) (tfrecords_filename : List Char)
    (inputs : List EncodeInput) : List Event :=
  (writeExamples (encodeItem loader) inputs).map Event.recordWrite ++
    [Event.metaWrite (tfrecord2metafilename tfrecords_filename)
      ⟨inputs.map Prod.fst, inputs.map Prod.snd, tfrecords_filename⟩]

/-- The container contents determined by a write trace. -/
def containerOf (trace : List Event) : List TFExample :=
  trace.filterMap (fun ev => match ev with | .recordWrite e => some e | _ => none)

/-- The sidecar writes (path and contents) of a trace. -/
def metaWritesOf (trace : List Event) : List (List Char × SidecarMeta) :=
  trace.filterMap (fun ev => match ev with | .metaWrite p m => some (p, m) | _ => none)

/-- Global grayscale mean persisted in `tfrecord.py` (line 25). -/
def GLEASON_MEAN_G : Rat := 153.85

/-- Global grayscale standard deviation persisted in `tfrecord.py`
(line 26). -/
def GLEASON_MEAN_STD_G : Rat := 25.38

/-- Embeds `normalize` (`tfrecord.py` lines 37–44): z-score with the
persisted constants, `(image - GLEASON_MEAN_G) / GLEASON_MEAN_STD_G`,
applied value-wise. -/
def normalize (image : Rat) : Rat :=
  (image - GLEASON_MEAN_G) / GLEASON_MEAN_STD_G

/-- A decoded image tensor of shape `[rows, cols, channels]`, values carried
as exact rationals (the pixel values are small integers, which `float32`
represents exactly). -/
abbrev Grid := List (List (List Rat))

/-- Split a list into consecutive chunks of `k` elements (`tf.reshape` on
the trailing axis). -/
def chunkList (k : Nat) (l : List α) : List (List α) :=
  if hkl : k = 0 ∨ l.length = 0 then []
  else l.take k :: chunkList k (l.drop k)
termination_by l.length
decreasing_by
  rcases not_or.mp hkl with ⟨hk, hl⟩
  have h1 : 0 < l.length := Nat.pos_of_ne_zero hl
  have h2 : 0 < k := Nat.pos_of_ne_zero hk
  simp only [List.length_drop]
  omega

/-- `tf.reshape(image, [ih, iw, 3])` followed by `tf.cast(image, tf.float32)`
(lines 237–238) on a raw byte buffer of length `ih*iw*3`: rows of `iw`
pixels of 3 channels, bytes cast exactly to float. -/
def toGrid (iw : Nat) (flat : List Nat) : Grid :=
  chunkList iw ((chunkList 3 flat).map (fun p => p.map (fun b => ((b : Nat) : Rat))))

/-- One axis of `tf.image.resize_image_with_crop_or_pad`: center-crop to `t`
elements when longer (offset `(len - t) / 2`), center-pad with `z` when
shorter (`pad_front = (t - len) / 2`). -/
def cropOrPad1 (t : Nat) (z : α) (xs : List α) : List α :=
  if t ≤ xs.length then (xs.drop ((xs.length - t) / 2)).take t
  else
    List.replicate ((t - xs.length) / 2) z ++ xs ++
      List.replicate (t - xs.length - (t - xs.length) / 2) z

/-- Embeds `tf.image.resize_image_with_crop_or_pad(image, th, tw)`
(lines 243–244): center crop/pad on both spatial axes, padding with zero
pixels. -/
def crop_or_pad (th tw : Nat) (g : Grid) : Grid :=
  (cropOrPad1 th (List.replicate tw [0, 0, 0]) g).map (cropOrPad1 tw [0, 0, 0])

/-- The per-record data path of `read_and_decode` with every augmentation
toggle disabled: parse and decode (lines 223–238), then the `else` branch of
`rand_crop`, i.e. `resize_image_with_crop_or_pad` (lines 242–244).  All other
stages are skipped. -/
def processRecord (ih iw th tw : Nat) (rec : TFExample) : Option Grid :=
  (decodeExample rec ih iw).map (fun d => crop_or_pad th tw (toGrid iw d.pixels))

/-- Embeds `read_and_decode` (`tfrecord.py` lines 202–307) specialized to
`augmentations_dic` all-`False` and `shuffle=False`: each record is decoded
and center-cropped/padded, then `tf.train.batch` groups images, labels and
paths in container order (batch assembly is modelled as the whole record
list in order).  No further transform is applied before returning
`img, t_l, f_p` — in particular `normalize` is never called. -/
def read_and_decode_noaug (recs : List TFExample) (ih iw th tw : Nat) :
    Option (List Grid × List Int × List (List Char)) :=
  (mapOption (processRecord ih iw th tw) recs).map
    (fun gs => (gs, recs.map (fun r => toInt32 r.target_label), recs.map (fun r => r.file_path)))

/-- All pixel values of a batch of image tensors, flattened. -/
def batchVals (gs : List Grid) : List Rat :=
  (gs.map (fun g => g.flatten.flatten)).flatten

/-- Mean pixel value of a batch. -/
def batchMean (gs : List Grid) : Rat :=
  (batchVals gs).sum / ((batchVals gs).length : Rat)

/-- Embeds `tf.tile(trans, [n])` on a flat (1-D) tensor: `n` concatenated
copies (line 296). -/
def tile1d (t : List Rat) (n : Nat) : List Rat :=
  (List.replicate n t).flatten

/-- The flat slice holding example `i` after
`tf.reshape(batch_trans, [n, h, w, 2])` (line 297): elements
`[i*len, (i+1)*len)` of the flat buffer. -/
def exampleSlice (batch : List Rat) (len i : Nat) : List Rat :=
  (batch.drop (i * len)).take len

/-- Embeds `tf.stack([X_convolved, Y_convolved], axis=-1)` followed by
`tf.reshape(trans, [-1])` (lines 293–294): the two displacement fields
interleaved into one flat buffer. -/
def stackFields : List Rat → List Rat → List Rat
  | x :: xs, y :: ys => x :: y :: stackFields xs ys
  | _, _ => []

/-- `List.map` with the element index, used to model per-example application
of a batched tensor op. -/
def mapWithIdx (f : Nat → α → β) : Nat → List α → List β
  | _, [] => []
  | i, a :: as => f i a :: mapWithIdx f (i + 1) as

/-- Embeds the elastic-warp stage of `read_and_decode` (lines 270–301): one
pair of displacement fields `X_convolved, Y_convolved` is produced for the
whole batch, stacked and flattened into `trans`, tiled `size_of_batch`
times, reshaped to `[n, h, w, 2]`, and `dense_image_warp` applies to each
example its slice of that batched field.  `warpFn` abstracts
`tf.contrib.image.dense_image_warp` applied to one example. -/
def warp_batch (warpFn : List Rat → Grid → Grid) (xConv yConv : List Rat) (n : Nat)
    (imgs : List Grid) : List Grid :=
  mapWithIdx
    (fun i im =>
      warpFn (exampleSlice (tile1d (stackFields xConv yConv) n) (stackFields xConv yConv).length i)
        im)
    0 imgs


/-! ## Helper lemmas -/

theorem map_eq_self {l : List α} {f : α → α} (h : ∀ x ∈ l, f x = x) : l.map f = l := by
  induction l with
  | nil => rfl
  | cons a as ih =>
    simp only [List.map_cons, h a (List.mem_cons_self a as)]
    rw [ih (fun x hx => h x (List.mem_cons_of_mem a hx))]

theorem flatten_length_const {l : List (List α)} {k : Nat} (h : ∀ p ∈ l, p.length = k) :
    l.flatten.length = k * l.length := by
  induction l with
  | nil => simp
  | cons a as ih =>
    simp only [List.flatten_cons, List.length_append, List.length_cons,
      h a (List.mem_cons_self a as), ih (fun x hx => h x (List.mem_cons_of_mem a hx))]
    ring

theorem writeExamples_eq_filterMap (f : EncodeInput → Option TFExample) (l : List EncodeInput) :
    writeExamples f l = l.filterMap f := by
  induction l with
  | nil => rfl
  | cons a as ih =>
    simp only [writeExamples, List.filterMap_cons]
    cases f a <;> simp [ih]

theorem filterMap_length_add (f : α → Option β) (l : List α) :
    (l.filterMap f).length + (l.filter (fun x => (f x).isNone)).length = l.length := by
  induction l with
  | nil => rfl
  | cons a as ih =>
    simp only [List.filterMap_cons, List.filter_cons]
    cases h : f a <;> simp [h, ih] <;> omega

theorem toInt32_eq_self {n : Int} (h1 : -(2 ^ 31) ≤ n) (h2 : n < 2 ^ 31) : toInt32 n = n := by
  unfold toInt32
  omega

/-! ## C1 -/

/-- C1 (counterexample to the claim as stated): the record codec stores the
label as int64 but `read_and_decode` casts it to int32, so the concrete pair
(a 1×1 3-channel image, label `2^31`) encodes successfully and decodes to
label `-2^31`, not the original label. -/
theorem C1_label_cast_counterexample :
    (encode [[0, 0, 0]] "p".toList (2 ^ 31)).bind (fun e => decodeExample e 1 1) =
      some ⟨[0, 0, 0], -(2 ^ 31), "p".toList⟩ ∧ (-(2 ^ 31) : Int) ≠ 2 ^ 31 := by
  decide

/-- C1 (amended): for an 8-bit image with at least 3 channels whose
post-truncation pixel count matches the declared decode dimensions, and a
label in the signed 32-bit range (in particular every label the resolver
produces), `decode(encode(path, label))` reproduces the post-truncation
pixel bytes byte-for-byte (hence, for an exactly-3-channel image, the
original pixel array), the original label, and the identical path. -/
theorem C1_roundtrip (img : GImage) (path : List Char) (label : Int) (h w : Nat)
    (hch : ∀ p ∈ img, 3 ≤ p.length)
    (hbyte : ∀ p ∈ img, ∀ b ∈ p, b < 256)
    (hdim : img.length = h * w)
    (hlab : -(2 ^ 31) ≤ label ∧ label < 2 ^ 31) :
    ∃ e, encode img path label = some e ∧
      decodeExample e h w = some ⟨(img.map (fun p => p.take 3)).flatten, label, path⟩ ∧
      ((∀ p ∈ img, p.length = 3) → (img.map (fun p => p.take 3)).flatten = img.flatten) := by
  have hguard : INT64_MIN ≤ label ∧ label ≤ INT64_MAX := by
    unfold INT64_MIN INT64_MAX
    omega
  have hbytes : ((img.map (fun p => p.take 3)).flatten).map (· % 256) =
      (img.map (fun p => p.take 3)).flatten := by
    apply map_eq_self
    intro b hb
    rcases List.mem_flatten.mp hb with ⟨q, hq, hbq⟩
    rcases List.mem_map.mp hq with ⟨p, hp, rfl⟩
    exact Nat.mod_eq_of_lt (hbyte p hp b (List.take_subset 3 p hbq))
  have hlen : ((img.map (fun p => p.take 3)).flatten).length = h * w * 3 := by
    have hall : ∀ q ∈ img.map (fun p => p.take 3), q.length = 3 := by
      intro q hq
      rcases List.mem_map.mp hq with ⟨p, hp, rfl⟩
      have := hch p hp
      simp only [List.length_take]
      omega
    rw [flatten_length_const hall, List.length_map, hdim]
    ring
  refine ⟨⟨(img.map (fun p => p.take 3)).flatten, path, label⟩, ?_, ?_, ?_⟩
  · unfold encode
    rw [if_pos hguard, hbytes]
  · unfold decodeExample
    simp only [hlen, toInt32_eq_self hlab.1 hlab.2, if_true, eq_self_iff_true]
  · intro hex
    apply congrArg
    apply map_eq_self
    intro p hp
    rw [← hex p hp]
    exact List.take_length p

/-- C1 witness: the round-trip theorem applied to a concrete 1×1 3-channel
image with label 5. -/
theorem C1_roundtrip_witness :
    ((∀ p ∈ ([[1, 2, 3]] : GImage), 3 ≤ p.length) ∧
      (∀ p ∈ ([[1, 2, 3]] : GImage), ∀ b ∈ p, b < 256) ∧
      ([[1, 2, 3]] : GImage).length = 1 * 1 ∧
      (-(2 ^ 31) ≤ (5 : Int) ∧ (5 : Int) < 2 ^ 31)) ∧
    (∃ e, encode [[1, 2, 3]] "p".toList 5 = some e ∧
      decodeExample e 1 1 =
        some ⟨(([[1, 2, 3]] : GImage).map (fun p => p.take 3)).flatten, 5, "p".toList⟩ ∧
      ((∀ p ∈ ([[1, 2, 3]] : GImage), p.length = 3) →
        (([[1, 2, 3]] : GImage).map (fun p => p.take 3)).flatten = ([[1, 2, 3]] : GImage).flatten)) :=
  ⟨by decide,
    C1_roundtrip [[1, 2, 3]] "p".toList 5 1 1 (by decide) (by decide) (by decide) (by decide)⟩

/-! ## C2 -/

/-- C2: with `N` submitted (path, label) pairs of which exactly `K` fail to
encode, the container receives exactly `N − K` records, and its sequence is
the submission order restricted to the successful items (each failure is
skipped without aborting the batch: the written trace below is total). -/
theorem C2_bulk_encoder (loader : List Char → Option GImage) (fname : List Char)
    (inputs : List EncodeInput) (K : Nat)
    (hK : K = (inputs.filter (fun x => (encodeItem loader x).isNone)).length) :
    (containerOf (create_tf_record loader fname inputs)).length = inputs.length - K ∧
    containerOf (create_tf_record loader fname inputs) = inputs.filterMap (encodeItem loader) := by
  have hcont : containerOf (create_tf_record loader fname inputs) =
      inputs.filterMap (encodeItem loader) := by
    unfold containerOf create_tf_record
    rw [List.filterMap_append, writeExamples_eq_filterMap, List.filterMap_map]
    simp only [List.filterMap_cons, List.filterMap_nil, List.append_nil]
    have : (fun ev => match ev with | Event.recordWrite e => some e | _ => none) ∘
        Event.recordWrite = some := rfl
    rw [this, List.filterMap_some]
  refine ⟨?_, hcont⟩
  rw [hcont, hK]
  have := filterMap_length_add (encodeItem loader) inputs
  omega

/-- C2 witness: two submitted pairs of which exactly one (an unreadable
path) fails: the container holds the single successful record, in order. -/
theorem C2_bulk_encoder_witness :
    (1 = (([("a".toList, (0 : Int)), ("b".toList, 1)]).filter
        (fun x => (encodeItem (fun p => if p = "a".toList then some [[7, 8, 9]] else none)
          x).isNone)).length) ∧
    ((containerOf (create_tf_record (fun p => if p = "a".toList then some [[7, 8, 9]] else none)
        "t.tfrecords".toList [("a".toList, 0), ("b".toList, 1)])).length =
      ([("a".toList, (0 : Int)), ("b".toList, 1)]).length - 1 ∧
    containerOf (create_tf_record (fun p => if p = "a".toList then some [[7, 8, 9]] else none)
        "t.tfrecords".toList [("a".toList, 0), ("b".toList, 1)]) =
      ([("a".toList, (0 : Int)), ("b".toList, 1)]).filterMap
        (encodeItem (fun p => if p = "a".toList then some [[7, 8, 9]] else none))) :=
  ⟨by decide,
    C2_bulk_encoder (fun p => if p = "a".toList then some [[7, 8, 9]] else none)
      "t.tfrecords".toList [("a".toList, 0), ("b".toList, 1)] 1 (by decide)⟩

/-- The single sidecar write of a bulk-encoder run: path
`tfrecord2metafilename fname`, contents the original unfiltered lists plus
the container path. -/
theorem metaWrites_create (loader : List Char → Option GImage) (fname : List Char)
    (inputs : List EncodeInput) :
    metaWritesOf (create_tf_record loader fname inputs) =
      [(tfrecord2metafilename fname, ⟨inputs.map Prod.fst, inputs.map Prod.snd, fname⟩)] := by
  unfold metaWritesOf create_tf_record
  rw [List.filterMap_append, List.filterMap_map]
  have hnone : ((fun ev => match ev with | Event.metaWrite p m => some (p, m) | _ => none) ∘
      Event.recordWrite) = fun _ => none := rfl
  rw [hnone]
  simp

/-! ## C5 -/

/-- C5: in every bulk-encoder run the sidecar metadata is written exactly
once (the trace holds a single `metaWrite`), it is the last write (so it
follows every container record), and it carries the full original list of
all `N` input paths, all `N` input labels, and the container's own path —
regardless of how many items the loader fails on. -/
theorem C5_sidecar_write (loader : List Char → Option GImage) (fname : List Char)
    (inputs : List EncodeInput) :
    metaWritesOf (create_tf_record loader fname inputs) =
      [(tfrecord2metafilename fname, ⟨inputs.map Prod.fst, inputs.map Prod.snd, fname⟩)] ∧
    (create_tf_record loader fname inputs).getLast? =
      some (Event.metaWrite (tfrecord2metafilename fname)
        ⟨inputs.map Prod.fst, inputs.map Prod.snd, fname⟩) ∧
    (inputs.map Prod.fst).length = inputs.length ∧
    (inputs.map Prod.snd).length = inputs.length := by
  refine ⟨metaWrites_create loader fname inputs, ?_, List.length_map _ _, List.length_map _ _⟩
  unfold create_tf_record
  rw [List.getLast?_concat]

/-! ## C10 -/

/-- C10: the sidecar path is derived deterministically from the container
filename by stripping the extension and appending `"_meta.npz"`
(`"train.tfrecords"` maps to `"train_meta.npz"`), and that derived path is
exactly where the bulk encoder writes the sidecar. -/
theorem C10_meta_filename :
    (∀ p : List Char, tfrecord2metafilename p = (splitext p).1 ++ "_meta.npz".toList) ∧
    tfrecord2metafilename "train.tfrecords".toList = "train_meta.npz".toList ∧
    (∀ (loader : List Char → Option GImage) (fname : List Char) (inputs : List EncodeInput),
      metaWritesOf (create_tf_record loader fname inputs) =
        [(tfrecord2metafilename fname, ⟨inputs.map Prod.fst, inputs.map Prod.snd, fname⟩)]) :=
  ⟨fun _ => rfl, by decide, metaWrites_create⟩

/-- `sum(values)/v` raises at the first zero divisor, so a zero anywhere in
the list makes the whole comprehension raise `ZeroDivisionError`. -/
theorem mapDivNat_zero_mem {values : List Nat} (t : Rat) (hz : 0 ∈ values) :
    mapDivNat t values = .error PyError.ZeroDivisionError := by
  induction values with
  | nil => cases hz
  | cons v vs ih =>
    rcases List.mem_cons.mp hz with h | h
    · simp [mapDivNat, ← h]
    · unfold mapDivNat
      rw [ih h]
      by_cases hv : v = 0 <;> simp [hv]

/-! ## C3 -/

/-- C3 (counterexample to the claim as stated): on a concrete input set with
only one populated class (so classes 0, 2, 3 have zero occurrences), the
aggregation raises Python's `ZeroDivisionError` — an uncaught
`sum(values)/0` — not the `ConfigurationError` the claim names. -/
theorem C3_error_kind_counterexample :
    calculate_class_ratios ["gleason_3_x.png".toList] = .error PyError.ZeroDivisionError ∧
    (Except.error PyError.ZeroDivisionError : Except PyError (List Rat)) ≠
      .error PyError.ConfigurationError := by
  decide

/-- C3 (amended): for every labeled input set in which at least one of the
four label classes {0,1,2,3} has zero occurrences, class-weight aggregation
raises an uncaught `ZeroDivisionError` at aggregation time (aborting before
any weight or the `.npy` output is produced), rather than producing inf/NaN
weights; it is not surfaced as a `ConfigurationError`. -/
theorem C3_zero_class_aborts (files : List (List Char)) (values : List Nat)
    (hc : countLabels files = some values) (hz : 0 ∈ values) :
    calculate_class_ratios files = .error PyError.ZeroDivisionError := by
  unfold calculate_class_ratios
  rw [hc]
  show calculate_class_ratios_core values = Except.error PyError.ZeroDivisionError
  unfold calculate_class_ratios_core
  rw [mapDivNat_zero_mem _ hz]

/-- C3 witness: the zero-class theorem applied to a concrete one-file input
set whose only example is of class 1. -/
theorem C3_zero_class_aborts_witness :
    (countLabels ["gleason_3_x.png".toList] = some [0, 1, 0, 0] ∧ 0 ∈ [0, 1, 0, 0]) ∧
    calculate_class_ratios ["gleason_3_x.png".toList] = .error PyError.ZeroDivisionError :=
  ⟨by decide, C3_zero_class_aborts ["gleason_3_x.png".toList] [0, 1, 0, 0] (by decide) (by decide)⟩

/-! ## C8 -/

/-- C8: for every label distribution with all four classes populated, the
weight vector has length 4, each weight is `(total/count_i)` divided by the
sum of the four inverse-frequency terms, every weight is non-negative, and
the weights sum exactly to 1 (rational arithmetic models the float
computation, so "within floating-point tolerance" holds exactly). -/
theorem C8_class_weights (c0 c1 c2 c3 : Nat)
    (h0 : 0 < c0) (h1 : 0 < c1) (h2 : 0 < c2) (h3 : 0 < c3) :
    ∃ ws, calculate_class_ratios_core [c0, c1, c2, c3] = .ok ws ∧
      ws.length = 4 ∧
      ws = (let t : Rat := ((c0 + c1 + c2 + c3 : Nat) : Rat)
            let s : Rat := t / c0 + t / c1 + t / c2 + t / c3
            [t / c0 / s, t / c1 / s, t / c2 / s, t / c3 / s]) ∧
      (∀ x ∈ ws, 0 ≤ x) ∧ ws.sum = 1 := by
  have hpos : 0 < c0 + c1 + c2 + c3 := by omega
  have ht : (0 : Rat) < ((c0 + c1 + c2 + c3 : Nat) : Rat) := by exact_mod_cast hpos
  set t : Rat := ((c0 + c1 + c2 + c3 : Nat) : Rat) with ht_def
  have hc0 : (0 : Rat) < (c0 : Rat) := by exact_mod_cast h0
  have hc1 : (0 : Rat) < (c1 : Rat) := by exact_mod_cast h1
  have hc2 : (0 : Rat) < (c2 : Rat) := by exact_mod_cast h2
  have hc3 : (0 : Rat) < (c3 : Rat) := by exact_mod_cast h3
  have hs : (0 : Rat) < t / c0 + (t / c1 + (t / c2 + t / c3)) := by
    have p0 : (0 : Rat) < t / c0 := div_pos ht hc0
    have p1 : (0 : Rat) < t / c1 := div_pos ht hc1
    have p2 : (0 : Rat) < t / c2 := div_pos ht hc2
    have p3 : (0 : Rat) < t / c3 := div_pos ht hc3
    linarith
  have hsumNat : ([c0, c1, c2, c3] : List Nat).sum = c0 + c1 + c2 + c3 := by
    simp only [List.sum_cons, List.sum_nil]
    omega
  have hsumRat : ([t / c0, t / c1, t / c2, t / c3] : List Rat).sum =
      t / c0 + (t / c1 + (t / c2 + t / c3)) := by
    simp only [List.sum_cons, List.sum_nil, add_zero]
  have hcore : calculate_class_ratios_core [c0, c1, c2, c3] =
      .ok [t / c0 / (t / c0 + (t / c1 + (t / c2 + t / c3))),
           t / c1 / (t / c0 + (t / c1 + (t / c2 + t / c3))),
           t / c2 / (t / c0 + (t / c1 + (t / c2 + t / c3))),
           t / c3 / (t / c0 + (t / c1 + (t / c2 + t / c3)))] := by
    unfold calculate_class_ratios_core
    rw [hsumNat]
    simp only [mapDivNat, h0.ne', h1.ne', h2.ne', h3.ne', if_false, ← ht_def]
    rw [hsumRat]
    simp only [mapDivRat, hs.ne', if_false]
  refine ⟨_, hcore, by simp, ?_, ?_, ?_⟩
  · show ([t / c0 / (t / c0 + (t / c1 + (t / c2 + t / c3))),
        t / c1 / (t / c0 + (t / c1 + (t / c2 + t / c3))),
        t / c2 / (t / c0 + (t / c1 + (t / c2 + t / c3))),
        t / c3 / (t / c0 + (t / c1 + (t / c2 + t / c3)))] : List Rat) =
      [t / c0 / (t / c0 + t / c1 + t / c2 + t / c3),
        t / c1 / (t / c0 + t / c1 + t / c2 + t / c3),
        t / c2 / (t / c0 + t / c1 + t / c2 + t / c3),
        t / c3 / (t / c0 + t / c1 + t / c2 + t / c3)]
    have hassoc : t / c0 + (t / c1 + (t / c2 + t / c3)) =
        t / c0 + t / c1 + t / c2 + t / c3 := by ring
    rw [hassoc]
  · intro x hx
    have hsle : (0 : Rat) ≤ t / c0 + (t / c1 + (t / c2 + t / c3)) := le_of_lt hs
    have htle : (0 : Rat) ≤ t := le_of_lt ht
    have hx0 : (0 : Rat) ≤ t / c0 / (t / c0 + (t / c1 + (t / c2 + t / c3))) :=
      div_nonneg (div_nonneg htle (le_of_lt hc0)) hsle
    have hx1 : (0 : Rat) ≤ t / c1 / (t / c0 + (t / c1 + (t / c2 + t / c3))) :=
      div_nonneg (div_nonneg htle (le_of_lt hc1)) hsle
    have hx2 : (0 : Rat) ≤ t / c2 / (t / c0 + (t / c1 + (t / c2 + t / c3))) :=
      div_nonneg (div_nonneg htle (le_of_lt hc2)) hsle
    have hx3 : (0 : Rat) ≤ t / c3 / (t / c0 + (t / c1 + (t / c2 + t / c3))) :=
      div_nonneg (div_nonneg htle (le_of_lt hc3)) hsle
    simp only [List.mem_cons, List.not_mem_nil, or_false] at hx
    rcases hx with h | h | h | h
    · exact h ▸ hx0
    · exact h ▸ hx1
    · exact h ▸ hx2
    · exact h ▸ hx3
  · simp only [List.sum_cons, List.sum_nil, add_zero]
    rw [div_add_div_same, div_add_div_same, div_add_div_same]
    exact div_self hs.ne'

/-- C8 witness: the class-weight theorem applied to the uniform distribution
with one example per class. -/
theorem C8_class_weights_witness :
    ((0 : Nat) < 1 ∧ (0 : Nat) < 1 ∧ (0 : Nat) < 1 ∧ (0 : Nat) < 1) ∧
    (∃ ws, calculate_class_ratios_core [1, 1, 1, 1] = .ok ws ∧
      ws.length = 4 ∧
      ws = (let t : Rat := ((1 + 1 + 1 + 1 : Nat) : Rat)
            let s : Rat := t / (1 : Nat) + t / (1 : Nat) + t / (1 : Nat) + t / (1 : Nat)
            [t / (1 : Nat) / s, t / (1 : Nat) / s, t / (1 : Nat) / s, t / (1 : Nat) / s]) ∧
      (∀ x ∈ ws, 0 ≤ x) ∧ ws.sum = 1) :=
  ⟨⟨by decide, by decide, by decide, by decide⟩,
    C8_class_weights 1 1 1 1 (by decide) (by decide) (by decide) (by decide)⟩

theorem mapOption_eq_map {f : α → Option β} {g : α → β} {l : List α}
    (h : ∀ a ∈ l, f a = some (g a)) : mapOption f l = some (l.map g) := by
  induction l with
  | nil => rfl
  | cons a as ih =>
    unfold mapOption
    rw [h a (List.mem_cons_self a as), ih (fun x hx => h x (List.mem_cons_of_mem a hx))]
    simp

theorem chunkList_len_mem {k : Nat} (hk : k ≠ 0) :
    ∀ (n : Nat) (l : List α), l.length = k * n →
      (chunkList k l).length = n ∧ ∀ c ∈ chunkList k l, c.length = k := by
  intro n
  induction n with
  | zero =>
    intro l hl
    rw [chunkList, dif_pos (Or.inr (by omega))]
    exact ⟨rfl, by simp⟩
  | succ m ih =>
    intro l hl
    have hknz : 0 < k := Nat.pos_of_ne_zero hk
    have hlpos : l.length ≠ 0 := by
      rw [hl]
      have : 0 < k * (m + 1) := Nat.mul_pos hknz (by omega)
      omega
    rw [chunkList, dif_neg (by push_neg; exact ⟨hk, hlpos⟩)]
    have htake : (l.take k).length = k := by
      have hkle : k ≤ k * (m + 1) := Nat.le_mul_of_pos_right k (by omega)
      rw [List.length_take, hl]
      omega
    have hdrop : (l.drop k).length = k * m := by
      rw [List.length_drop, hl]
      ring_nf
      omega
    rcases ih (l.drop k) hdrop with ⟨ihlen, ihmem⟩
    refine ⟨by simp [ihlen], ?_⟩
    intro c hc
    rcases List.mem_cons.mp hc with h | h
    · rw [h]; exact htake
    · exact ihmem c h

theorem chunkList_nil (k : Nat) : chunkList k ([] : List α) = [] := by
  rw [chunkList]
  simp

theorem chunkList_cons {k : Nat} (hk : k ≠ 0) (a : α) (l : List α) :
    chunkList k (a :: l) = (a :: l).take k :: chunkList k ((a :: l).drop k) := by
  rw [chunkList, dif_neg]
  push_neg
  exact ⟨hk, by simp⟩

theorem toGrid_shape {flat : List Nat} {h w : Nat} (hw : w ≠ 0)
    (hlen : flat.length = h * w * 3) :
    (toGrid w flat).length = h ∧ ∀ row ∈ toGrid w flat, row.length = w := by
  unfold toGrid
  have h3 : flat.length = 3 * (h * w) := by omega
  rcases chunkList_len_mem (by omega : (3 : Nat) ≠ 0) (h * w) flat h3 with ⟨hplen, _⟩
  have hmlen : ((chunkList 3 flat).map (fun p => p.map (fun b => ((b : Nat) : Rat)))).length =
      w * h := by
    rw [List.length_map, hplen]
    ring
  exact chunkList_len_mem hw h _ hmlen

theorem cropOrPad1_eq_self {t : Nat} {z : α} {xs : List α} (h : xs.length = t) :
    cropOrPad1 t z xs = xs := by
  unfold cropOrPad1
  rw [if_pos (le_of_eq h.symm), h, Nat.sub_self]
  simp only [Nat.zero_div, List.drop_zero, ← h, List.take_length]

theorem crop_or_pad_eq_self {g : Grid} {h w : Nat} (hg : g.length = h)
    (hrow : ∀ row ∈ g, row.length = w) : crop_or_pad h w g = g := by
  unfold crop_or_pad
  rw [cropOrPad1_eq_self hg]
  exact map_eq_self (fun row hr => cropOrPad1_eq_self (hrow row hr))

/-! ## C4 -/

/-- C4 (counterexample to the claim as stated): with all augmentation
toggles disabled, a concrete one-record batch (1×1 image, every byte 0)
comes out of `read_and_decode` as the raw pixel values: the batch mean is 0,
which does not match the persisted constant `GLEASON_MEAN_G = 153.85`, and
the values are not z-scored (`normalize 0 ≠ 0`): `read_and_decode` never
applies `normalize`. -/
theorem C4_no_normalization_counterexample :
    read_and_decode_noaug [⟨[0, 0, 0], "p".toList, 0⟩] 1 1 1 1 =
      some ([[[[0, 0, 0]]]], [0], ["p".toList]) ∧
    batchMean [[[[0, 0, 0]]]] = 0 ∧
    (0 : Rat) ≠ GLEASON_MEAN_G ∧
    normalize 0 ≠ 0 := by
  refine ⟨?_, ?_, ?_, ?_⟩
  · have h1 : processRecord 1 1 1 1 ⟨[0, 0, 0], "p".toList, 0⟩ = some [[[0, 0, 0]]] := by
      unfold processRecord decodeExample
      norm_num
      unfold toGrid
      norm_num [chunkList_cons, chunkList_nil, crop_or_pad, cropOrPad1]
    unfold read_and_decode_noaug mapOption
    rw [h1]
    norm_num [mapOption, toInt32]
  · norm_num [batchMean, batchVals]
  · norm_num [GLEASON_MEAN_G]
  · norm_num [normalize, GLEASON_MEAN_G, GLEASON_MEAN_STD_G]

/-- C4 (amended): `read_and_decode` applies no normalization at all.  With
every augmentation toggle disabled (and model dims equal to the decode
dims, so the center crop/pad is the identity), the output batch is exactly
the decoded raw pixel values, label int32 casts and paths, in order; the
z-score transform exists only as the separate function `normalize`
(`(x - GLEASON_MEAN_G) / GLEASON_MEAN_STD_G`), which the pipeline never
calls, so the output statistics are those of the raw data, not of the
persisted constants. -/
theorem C4_pipeline_is_raw (recs : List TFExample) (h w : Nat)
    (_hh : 0 < h) (hw : 0 < w)
    (hlen : ∀ r ∈ recs, r.image_raw.length = h * w * 3) :
    read_and_decode_noaug recs h w h w =
      some (recs.map (fun r => toGrid w r.image_raw),
            recs.map (fun r => toInt32 r.target_label),
            recs.map (fun r => r.file_path)) ∧
    (∀ x : Rat, normalize x = (x - GLEASON_MEAN_G) / GLEASON_MEAN_STD_G) := by
  refine ⟨?_, fun _ => rfl⟩
  have hm : ∀ r ∈ recs, processRecord h w h w r = some (toGrid w r.image_raw) := by
    intro r hr
    unfold processRecord decodeExample
    rw [if_pos (hlen r hr)]
    simp only [Option.map_some']
    rcases toGrid_shape (by omega : w ≠ 0) (hlen r hr) with ⟨hg, hrow⟩
    rw [crop_or_pad_eq_self hg hrow]
  unfold read_and_decode_noaug
  rw [mapOption_eq_map hm]
  rfl

/-- C4 witness: the amended pipeline theorem applied to a concrete
one-record batch. -/
theorem C4_pipeline_is_raw_witness :
    (0 < 1 ∧ 0 < 1 ∧
      (∀ r ∈ [(⟨[0, 0, 0], "p".toList, 0⟩ : TFExample)], r.image_raw.length = 1 * 1 * 3)) ∧
    (read_and_decode_noaug [(⟨[0, 0, 0], "p".toList, 0⟩ : TFExample)] 1 1 1 1 =
      some (([(⟨[0, 0, 0], "p".toList, 0⟩ : TFExample)]).map (fun r => toGrid 1 r.image_raw),
            ([(⟨[0, 0, 0], "p".toList, 0⟩ : TFExample)]).map (fun r => toInt32 r.target_label),
            ([(⟨[0, 0, 0], "p".toList, 0⟩ : TFExample)]).map (fun r => r.file_path)) ∧
    (∀ x : Rat, normalize x = (x - GLEASON_MEAN_G) / GLEASON_MEAN_STD_G)) :=
  ⟨⟨by decide, by decide, by decide⟩,
    C4_pipeline_is_raw [⟨[0, 0, 0], "p".toList, 0⟩] 1 1 (by decide) (by decide) (by decide)⟩

/-- Dropping `i` whole copies from the flattening of `n` copies leaves the
flattening of `n - i` copies. -/
theorem flatten_replicate_drop (t : List Rat) :
    ∀ (n i : Nat), i < n →
      (((List.replicate n t).flatten).drop (i * t.length)).take t.length = t := by
  intro n i
  induction i generalizing n with
  | zero =>
    intro hn
    cases n with
    | zero => omega
    | succ m =>
      rw [List.replicate_succ, List.flatten_cons, Nat.zero_mul, List.drop_zero]
      exact List.take_left t _
  | succ i ih =>
    intro hn
    cases n with
    | zero => omega
    | succ m =>
      rw [List.replicate_succ, List.flatten_cons,
        show (i + 1) * t.length = t.length + i * t.length by ring,
        ← List.drop_drop, List.drop_left]
      exact ih m (by omega)

/-- The slice of the tiled per-batch field at any example index is the whole
field again. -/
theorem exampleSlice_tile1d (t : List Rat) (n i : Nat) (hi : i < n) :
    exampleSlice (tile1d t n) t.length i = t := by
  unfold exampleSlice tile1d
  exact flatten_replicate_drop t n i hi

theorem mapWithIdx_get (f : Nat → α → β) :
    ∀ (l : List α) (k i : Nat), (mapWithIdx f k l).get? i = (l.get? i).map (f (k + i)) := by
  intro l
  induction l with
  | nil => intro k i; rfl
  | cons a as ih =>
    intro k i
    cases i with
    | zero => rfl
    | succ j =>
      show (mapWithIdx f (k + 1) as).get? j = (as.get? j).map (f (k + (j + 1)))
      rw [ih (k + 1) j, show k + (j + 1) = k + 1 + j from by omega]

/-! ## C9 -/

/-- C9: when the warp stage is enabled, the single per-batch pair of
displacement fields (stacked into `trans`, tiled `n` times and reshaped to
one slice per example) is applied identically to every example: example `i`
of the warped batch is `warpFn` of the whole field `stackFields xConv yConv`
— the same field for every `i`, not an independently drawn one. -/
theorem C9_shared_warp_field (warpFn : List Rat → Grid → Grid) (xConv yConv : List Rat)
    (n : Nat) (imgs : List Grid) (_hlen : imgs.length = n) (i : Nat) (hi : i < n) :
    (warp_batch warpFn xConv yConv n imgs).get? i =
      (imgs.get? i).map (warpFn (stackFields xConv yConv)) := by
  unfold warp_batch
  rw [mapWithIdx_get]
  rcases Nat.lt_or_ge i imgs.length with hlt | hge
  · rw [exampleSlice_tile1d _ n (0 + i) (by omega)]
  · rw [List.get?_eq_none.mpr hge]
    rfl

/-- C9 witness: a two-example batch, checked at example index 0 with a
concrete warp function and fields. -/
theorem C9_shared_warp_field_witness :
    (([[[[1, 1, 1]]], [[[2, 2, 2]]]] : List Grid).length = 2 ∧ 0 < 2) ∧
    (warp_batch (fun _ g => g) [1] [2] 2 [[[[1, 1, 1]]], [[[2, 2, 2]]]]).get? 0 =
      (([[[[1, 1, 1]]], [[[2, 2, 2]]]] : List Grid).get? 0).map
        ((fun _ g => g) (stackFields [1] [2])) :=
  ⟨⟨rfl, by decide⟩,
    C9_shared_warp_field (fun _ g => g) [1] [2] 2 [[[[1, 1, 1]]], [[[2, 2, 2]]]] rfl 0 (by decide)⟩

theorem splitOnChar_ne_nil (sep : Char) (l : List Char) : splitOnChar sep l ≠ [] := by
  cases l with
  | nil => simp [splitOnChar]
  | cons c cs =>
    unfold splitOnChar
    cases h : splitOnChar sep cs with
    | nil => simp
    | cons t ts => by_cases hc : c = sep <;> simp [hc]

theorem not_mem_splitOnChar (sep : Char) (l : List Char) :
    ∀ t ∈ splitOnChar sep l, sep ∉ t := by
  induction l with
  | nil =>
    intro t ht
    simp only [splitOnChar, List.mem_singleton] at ht
    subst ht
    simp
  | cons c cs ih =>
    intro t
    unfold splitOnChar
    cases h : splitOnChar sep cs with
    | nil => exact fun _ => absurd h (splitOnChar_ne_nil sep cs)
    | cons t' ts =>
      show t ∈ (if c = sep then [] :: t' :: ts else (c :: t') :: ts) → sep ∉ t
      by_cases hc : c = sep
      · rw [if_pos hc]
        intro ht
        rcases List.mem_cons.mp ht with h1 | h1
        · subst h1; simp
        · exact ih t (h ▸ h1)
      · rw [if_neg hc]
        intro ht
        rcases List.mem_cons.mp ht with h1 | h1
        · subst h1
          intro hmem
          rcases List.mem_cons.mp hmem with h2 | h2
          · exact hc h2.symm
          · exact ih t' (h ▸ List.mem_cons_self t' ts) h2
        · exact ih t (h ▸ List.mem_cons_of_mem t' h1)

theorem char_toNat_ofNat {n : Nat} (h : n.isValidChar) : (Char.ofNat n).toNat = n := by
  unfold Char.ofNat
  rw [dif_pos h]
  rfl

theorem toLower_def (c : Char) : Char.toLower c =
    if c.toNat ≥ 65 ∧ c.toNat ≤ 90 then Char.ofNat (c.toNat + 32) else c := rfl

/-- For a target character that is neither an ASCII capital nor an ASCII
lower-case letter (such as `'_'` or a digit), `Char.toLower c = d` holds
exactly when `c = d`. -/
theorem toLower_eq_iff {c d : Char} (hd1 : ¬(d.toNat ≥ 65 ∧ d.toNat ≤ 90))
    (hd2 : ¬(d.toNat ≥ 97 ∧ d.toNat ≤ 122)) : Char.toLower c = d ↔ c = d := by
  rw [toLower_def]
  constructor
  · intro h
    split_ifs at h with hc
    · exfalso
      have hvalid : (c.toNat + 32).isValidChar := Or.inl (by omega)
      have := congrArg Char.toNat h
      rw [char_toNat_ofNat hvalid] at this
      exact hd2 (by omega)
    · exact h
  · intro h
    subst h
    rw [if_neg hd1]

theorem map_toLower_no_underscore {t : List Char} (h : '_' ∉ t) :
    '_' ∉ t.map Char.toLower := by
  intro hmem
  rcases List.mem_map.mp hmem with ⟨c, hc, heq⟩
  have : c = '_' := (toLower_eq_iff (by decide) (by decide)).mp heq
  exact h (this ▸ hc)

/-- A list maps to a single non-letter character under `toLower` exactly
when it is that singleton. -/
theorem map_toLower_singleton {t : List Char} {d : Char}
    (hd1 : ¬(d.toNat ≥ 65 ∧ d.toNat ≤ 90)) (hd2 : ¬(d.toNat ≥ 97 ∧ d.toNat ≤ 122)) :
    t.map Char.toLower = [d] ↔ t = [d] := by
  cases t with
  | nil => simp
  | cons c cs =>
    cases cs with
    | nil =>
      simp only [List.map_cons, List.map_nil, List.cons.injEq, and_true]
      exact toLower_eq_iff hd1 hd2
    | cons c2 cs2 => simp

/-- Splitting a concatenation at its separator is unambiguous when neither
side of the separator contains it. -/
theorem append_sep_inj {u p : List Char} (v s : List Char)
    (hu : '_' ∉ u) (hp : '_' ∉ p) :
    (u ++ '_' :: v = p ++ '_' :: s) ↔ (u = p ∧ v = s) := by
  induction u generalizing p with
  | nil =>
    cases p with
    | nil => simp
    | cons q qs =>
      have hq : q ≠ '_' := fun h => hp (h ▸ List.mem_cons_self q qs)
      simp only [List.nil_append, List.cons_append, List.cons.injEq]
      constructor
      · rintro ⟨h1, _⟩
        exact absurd h1.symm hq
      · rintro ⟨h1, _⟩
        exact absurd h1 (by simp)
  | cons a u' ih =>
    cases p with
    | nil =>
      have ha : a ≠ '_' := fun h => hu (h ▸ List.mem_cons_self a u')
      simp only [List.cons_append, List.nil_append, List.cons.injEq]
      constructor
      · rintro ⟨h1, _⟩
        exact absurd h1 ha
      · rintro ⟨h1, _⟩
        exact absurd h1 (by simp)
    | cons q qs =>
      have hu' : '_' ∉ u' := fun h => hu (List.mem_cons_of_mem a h)
      have hp' : '_' ∉ qs := fun h => hp (List.mem_cons_of_mem q h)
      simp only [List.cons_append, List.cons.injEq]
      rw [ih hu' hp']
      constructor
      · rintro ⟨h1, h2, h3⟩
        exact ⟨⟨h1, h2⟩, h3⟩
      · rintro ⟨⟨h1, h2⟩, h3⟩
        exact ⟨h1, h2, h3⟩

/-! ## C6 -/

/-- C6: for every file identifier (with the two leading underscore-delimited
tokens the claim speaks of), the resolver's label equals the label obtained
by lower-casing both tokens and joining them with an underscore as the spec
words it (`label_resolver_spec`) — the code lower-cases only the first
token, but no character lower-cases onto the digits `5`, `4`, `3`, so the
resulting labels coincide on every input; and the fixed table maps
`"gleason_5"` to 3, `"gleason_4"` to 2, `"gleason_3"` to 1, and every other
key to 0. -/
theorem C6_resolver_key_table :
    (∀ img : List Char, label_of img = label_resolver_spec img) ∧
    labelTable "gleason_5".toList = 3 ∧
    labelTable "gleason_4".toList = 2 ∧
    labelTable "gleason_3".toList = 1 ∧
    (∀ key : List Char, key ≠ "gleason_5".toList → key ≠ "gleason_4".toList →
      key ≠ "gleason_3".toList → labelTable key = 0) := by
  refine ⟨?_, by decide, by decide, by decide, ?_⟩
  · intro img
    unfold label_of label_resolver_spec
    cases hs : splitOnChar '_' (basename img) with
    | nil => rfl
    | cons t0 ts =>
      cases ts with
      | nil => rfl
      | cons t1 rest =>
        show some (labelTable (class_name t0 t1)) = some (labelTable (class_name_spec t0 t1))
        have ht0 : '_' ∉ t0 :=
          not_mem_splitOnChar '_' (basename img) t0 (by rw [hs]; exact List.mem_cons_self _ _)
        have hu : '_' ∉ t0.map Char.toLower := map_toLower_no_underscore ht0
        have hg : '_' ∉ "gleason".toList := by decide
        have hkey : ∀ d : Char, ¬(d.toNat ≥ 65 ∧ d.toNat ≤ 90) →
            ¬(d.toNat ≥ 97 ∧ d.toNat ≤ 122) →
            ((t0.map Char.toLower ++ '_' :: t1 = "gleason".toList ++ '_' :: [d]) ↔
             (t0.map Char.toLower ++ '_' :: t1.map Char.toLower =
               "gleason".toList ++ '_' :: [d])) := by
          intro d hd1 hd2
          rw [append_sep_inj t1 [d] hu hg, append_sep_inj (t1.map Char.toLower) [d] hu hg,
            map_toLower_singleton hd1 hd2]
        congr 1
        unfold labelTable class_name class_name_spec
        rw [show "gleason_5".toList = "gleason".toList ++ '_' :: ['5'] from by decide,
          show "gleason_4".toList = "gleason".toList ++ '_' :: ['4'] from by decide,
          show "gleason_3".toList = "gleason".toList ++ '_' :: ['3'] from by decide]
        exact if_congr (hkey '5' (by decide) (by decide)) rfl
          (if_congr (hkey '4' (by decide) (by decide)) rfl
            (if_congr (hkey '3' (by decide) (by decide)) rfl rfl))
  · intro key h5 h4 h3
    unfold labelTable
    rw [if_neg h5, if_neg h4, if_neg h3]

/-- C6 witness: the table's default case applied to the concrete
unrecognized key `"foo_x"`. -/
theorem C6_resolver_key_table_witness :
    ("foo_x".toList ≠ "gleason_5".toList ∧ "foo_x".toList ≠ "gleason_4".toList ∧
      "foo_x".toList ≠ "gleason_3".toList) ∧
    labelTable "foo_x".toList = 0 :=
  ⟨by decide,
    C6_resolver_key_table.2.2.2.2 "foo_x".toList (by decide) (by decide) (by decide)⟩

/-! ## C7 -/

/-- C7 (counterexample to the claim as stated): the resolver is not total —
on the file identifier `"bar.png"`, whose basename has no underscore,
`file_name[1]` raises an `IndexError` (modelled `none`) instead of
returning the background label 0. -/
theorem C7_totality_counterexample :
    label_of "bar.png".toList = none ∧ (none : Option Nat) ≠ some 0 := by
  decide

/-- C7 (amended): the resolver is total only on file identifiers whose
basename has at least two underscore-delimited tokens; for those it returns
a label without raising, and every unrecognized key yields the background
label 0.  An identifier whose basename splits into a single token (no
underscore) raises `IndexError` instead. -/
theorem C7_resolver_totality (img : List Char) :
    (∀ t0 t1 rest, splitOnChar '_' (basename img) = t0 :: t1 :: rest →
      ∃ lab, label_of img = some lab ∧
        (class_name t0 t1 ≠ "gleason_5".toList →
         class_name t0 t1 ≠ "gleason_4".toList →
         class_name t0 t1 ≠ "gleason_3".toList → lab = 0)) ∧
    (∀ t0, splitOnChar '_' (basename img) = [t0] → label_of img = none) := by
  constructor
  · intro t0 t1 rest hsplit
    refine ⟨labelTable (class_name t0 t1), ?_, ?_⟩
    · unfold label_of
      rw [hsplit]
    · intro h5 h4 h3
      unfold labelTable
      rw [if_neg h5, if_neg h4, if_neg h3]
  · intro t0 hsplit
    unfold label_of
    rw [hsplit]

/-- C7 witness: the totality theorem applied to the concrete identifier
`"foo_bar.png"` (two tokens, unrecognized key, label 0). -/
theorem C7_resolver_totality_witness :
    (splitOnChar '_' (basename "foo_bar.png".toList) = ["foo".toList, "bar.png".toList]) ∧
    (∃ lab, label_of "foo_bar.png".toList = some lab ∧
      (class_name "foo".toList "bar.png".toList ≠ "gleason_5".toList →
       class_name "foo".toList "bar.png".toList ≠ "gleason_4".toList →
       class_name "foo".toList "bar.png".toList ≠ "gleason_3".toList → lab = 0)) :=
  ⟨by decide,
    (C7_resolver_totality "foo_bar.png".toList).1 "foo".toList "bar.png".toList [] (by decide)⟩

end Gleason
